import Mathlib

/-!
Verification of the MIPS ROP gadget finder (`src/plugins/mipsrop.py`).

The engine is shallowly embedded: the IDA disassembly API (`idc`, `idaapi`,
`idautils`) and Python's `re` module are external collaborators, modelled by
the record `Env` below; the analysis functions of class `MIPSROPFinder` are
translated into Lean functions over an `Env`.  Addresses are `Int` (Python
integers); the sentinel `idc.BADADDR` used by the searches to signal "not
found" is rendered as `Option.none` on the Lean side, and the searches
return `Option Int`.
-/

/-- `idc.BADADDR` of a 32-bit IDA database.  Only used as the inert default
`ea` of pattern instructions; search results use `Option Int` instead. -/
def BADADDR : Int := 0xFFFFFFFF

/-- `MIPSROPFinder.INSIZE`: every MIPS instruction is 4 bytes. -/
def INSIZE : Int := 4

/-- `MIPSROPFinder.SEARCH_DEPTH`: maximum lookback depth in instructions. -/
def SEARCH_DEPTH : Int := 25

/-- The external collaborators of the engine, gathered in one record:

* `mnem ea` models `idc.GetMnem(ea)` (the empty string when there is no
  instruction at `ea`);
* `opnd ea i` models `idc.GetOpnd(ea, i)` (the empty string for an absent
  operand);
* `chg1 ea` models
  `(idaapi.insn_t_get_canon_feature(idaapi.cmd.itype) & idaapi.CF_CHG1) == idaapi.CF_CHG1`
  for the instruction decoded at `ea` — every call of `_is_bad_instruction`
  happens right after `_does_instruction_match` ran `idaapi.decode_insn(ea)`
  on the same `ea`, so the global `idaapi.cmd` holds the instruction at `ea`;
* `re_match p s` models the truthiness of Python's `re.match(p, s)`
  (anchored-at-start regular-expression match);
* `xrefsToSystem` models the list of `.frm` addresses produced by
  `idautils.XrefsTo(idc.LocByName('system'))`;
* `code_segments` models the `(SegStart, SegEnd)` pairs returned by
  `_get_segments(self.CODE)`. -/
structure Env where
  mnem : Int → String
  opnd : Int → Nat → String
  chg1 : Int → Bool
  re_match : String → String → Bool
  xrefsToSystem : List Int
  code_segments : List (Int × Int)

/-- Class `MIPSInstruction`: a mnemonic, up to three operands and an address.
Python stores a string or `None` in each field; `Option String` renders
that, and Python truthiness (`None` and `""` are falsy) is `truthy` below. -/
structure MIPSInstruction where
  mnem : Option String
  opnd0 : Option String
  opnd1 : Option String
  opnd2 : Option String
  ea : Int
deriving DecidableEq

/-- The `operands` list of a `MIPSInstruction` (`[opnd0, opnd1, opnd2]`). -/
def MIPSInstruction.operands (x : MIPSInstruction) : List (Option String) :=
  [x.opnd0, x.opnd1, x.opnd2]

/-- Python truthiness of a string-or-`None` field: `None` and `""` are falsy. -/
def truthy : Option String → Bool
  | none => false
  | some s => !s.isEmpty

/-- Class `ROPGadget`: `entry` is the control instruction, `exit` the jump,
`operation` the optional matched instruction, `description` the label
(the source's default is the literal, misspelled `"ROP gaget"`). -/
structure ROPGadget where
  entry : MIPSInstruction
  exit : MIPSInstruction
  operation : Option MIPSInstruction
  description : String
deriving DecidableEq

/-- `MIPSROPFinder._get_instruction`: decode the instruction at `ea` through
the collaborator (`GetMnem` / `GetOpnd` always return strings, hence `some`). -/
def get_instruction (P : Env) (ea : Int) : MIPSInstruction :=
  ⟨some (P.mnem ea), some (P.opnd ea 0), some (P.opnd ea 1), some (P.opnd ea 2), ea⟩

/-- Python's `mnem and mnem[0] in chars`: the string is non-empty and its
first character is listed. -/
def head_in (s : String) (chars : List Char) : Bool :=
  match s.data with
  | [] => false
  | c :: _ => chars.contains c

/-- `MIPSROPFinder._is_bad_instruction`: an instruction is unsafe to cross
when its mnemonic starts with a char of `bad_instructions` (default
`['j', 'b']`), or when it rewrites its first operand (`CF_CHG1`) and that
operand is one of the protected `no_clobber` registers.  `no_clobber`
entries are `Option String` because `_find_rop_gadgets` passes a field that
Python may hold as `None`; comparing `GetOpnd(ea, 0) == None` is `False`,
rendered here by comparing against `some (P.opnd ea 0)`. -/
def is_bad_instruction (P : Env) (ea : Int) (bad_instructions : List Char)
    (no_clobber : List (Option String)) : Bool :=
  if head_in (P.mnem ea) bad_instructions then true
  else no_clobber.any (fun register => P.chg1 ea && (some (P.opnd ea 0) == register))

/-- The operand-counting loop of `_does_instruction_match`: walk the three
pattern slots with running index `i`, counting present slots (`op_cnt`) and
present slots whose instruction operand matches (`op_ok_cnt`). -/
def opCounts (P : Env) (ea : Int) (regex : Bool) : Nat → List (Option String) → Nat × Nat
  | _, [] => (0, 0)
  | i, operand :: rest =>
    let acc := opCounts P ea regex (i + 1) rest
    if truthy operand then
      let op := P.opnd ea i
      if regex then
        if P.re_match (operand.getD "") op then (acc.1 + 1, acc.2 + 1) else (acc.1 + 1, acc.2)
      else
        if operand.getD "" == op then (acc.1 + 1, acc.2 + 1) else (acc.1 + 1, acc.2)
    else acc

/-- `MIPSROPFinder._does_instruction_match`: the pattern's mnemonic is falsy,
or equals the instruction's mnemonic, or (in regex mode) regex-matches it;
and then every present pattern operand must match the instruction operand of
the same index (`op_cnt == op_ok_cnt`). -/
def does_instruction_match (P : Env) (ea : Int) (instruction : MIPSInstruction)
    (regex : Bool) : Bool :=
  let mnem := P.mnem ea
  if !truthy instruction.mnem || instruction.mnem == some mnem
      || (regex && P.re_match (instruction.mnem.getD "") mnem) then
    let counts := opCounts P ea regex 0 instruction.operands
    counts.1 == counts.2
  else false

/-- Number of iterations of the `while ea <= end_ea: ... ea += 4` loop of
`_find_next_instruction_ea` when no early exit occurs, i.e. the number of
addresses `s, s+4, s+8, …` that are `≤ e`. -/
def numSteps (s e : Int) : Nat := ((e + 1 - s).toNat + 3) / 4

/-- Number of iterations of the `while ea >= end_ea: ... ea -= 4` loop of
`_find_prev_instruction_ea` when no early exit occurs. -/
def numStepsDown (s e : Int) : Nat := ((s + 1 - e).toNat + 3) / 4

/-- The ascending address window `s, s+4, s+8, … ≤ e` visited by
`_find_next_instruction_ea`. -/
def ascAddrs (s e : Int) : List Int :=
  (List.range (numSteps s e)).map (fun k : Nat => s + 4 * (k : Int))

/-- The descending address window `s, s-4, s-8, … ≥ e` visited by
`_find_prev_instruction_ea`. -/
def descAddrs (s e : Int) : List Int :=
  (List.range (numStepsDown s e)).map (fun k : Nat => s - 4 * (k : Int))

/-- Reference form of both windowed searches: walk a list of addresses and
return the first that matches the pattern; before a match, stop with `none`
at an unsafe-to-cross instruction when `no_baddies` is set. -/
def firstHit (P : Env) (instruction : MIPSInstruction) (no_baddies regex : Bool)
    (dont_overwrite : List (Option String)) : List Int → Option Int
  | [] => none
  | a :: rest =>
    if does_instruction_match P a instruction regex then some a
    else if no_baddies && is_bad_instruction P a ['j', 'b'] dont_overwrite then none
    else firstHit P instruction no_baddies regex dont_overwrite rest

/-- The loop body of `_find_next_instruction_ea`, with the `while` condition
`ea <= end_ea` kept verbatim; the `Nat` fuel only realizes termination and is
chosen in `find_next_instruction_ea` to exceed the iteration count. -/
def findNextGo (P : Env) (instruction : MIPSInstruction) (end_ea : Int)
    (no_baddies regex : Bool) (dont_overwrite : List (Option String)) :
    Nat → Int → Option Int
  | 0, _ => none
  | fuel + 1, ea =>
    if ea ≤ end_ea then
      if does_instruction_match P ea instruction regex then some ea
      else if no_baddies && is_bad_instruction P ea ['j', 'b'] dont_overwrite then none
      else findNextGo P instruction end_ea no_baddies regex dont_overwrite fuel (ea + INSIZE)
    else none

/-- The loop body of `_find_prev_instruction_ea`, with the `while` condition
`ea >= end_ea` kept verbatim. -/
def findPrevGo (P : Env) (instruction : MIPSInstruction) (end_ea : Int)
    (no_baddies regex : Bool) (dont_overwrite : List (Option String)) :
    Nat → Int → Option Int
  | 0, _ => none
  | fuel + 1, ea =>
    if end_ea ≤ ea then
      if does_instruction_match P ea instruction regex then some ea
      else if no_baddies && is_bad_instruction P ea ['j', 'b'] dont_overwrite then none
      else findPrevGo P instruction end_ea no_baddies regex dont_overwrite fuel (ea - INSIZE)
    else none

/-- `MIPSROPFinder._find_next_instruction_ea` (source defaults:
`no_baddies=False`, `regex=False`, `dont_overwrite=[]`; every argument is
passed explicitly here). -/
def find_next_instruction_ea (P : Env) (start_ea : Int) (instruction : MIPSInstruction)
    (end_ea : Int) (no_baddies regex : Bool) (dont_overwrite : List (Option String)) :
    Option Int :=
  findNextGo P instruction end_ea no_baddies regex dont_overwrite
    (numSteps start_ea end_ea + 1) start_ea

/-- `MIPSROPFinder._find_prev_instruction_ea` (source defaults:
`no_baddies=True`, `regex=False`, `dont_overwrite=[]`). -/
def find_prev_instruction_ea (P : Env) (start_ea : Int) (instruction : MIPSInstruction)
    (end_ea : Int) (no_baddies regex : Bool) (dont_overwrite : List (Option String)) :
    Option Int :=
  findPrevGo P instruction end_ea no_baddies regex dont_overwrite
    (numStepsDown start_ea end_ea + 1) start_ea

/-- `_find_next_instruction_ea` as called with the source's default keyword
arguments (`no_baddies=False, regex=False, dont_overwrite=[]`). -/
def find_next_instruction_ea_dflt (P : Env) (start_ea : Int)
    (instruction : MIPSInstruction) (end_ea : Int) : Option Int :=
  find_next_instruction_ea P start_ea instruction end_ea false false []

/-- `_find_prev_instruction_ea` as called with the source's default keyword
arguments (`no_baddies=True, regex=False, dont_overwrite=[]`). -/
def find_prev_instruction_ea_dflt (P : Env) (start_ea : Int)
    (instruction : MIPSInstruction) (end_ea : Int) : Option Int :=
  find_prev_instruction_ea P start_ea instruction end_ea true false []

theorem numSteps_eq_zero {s e : Int} (h : e < s) : numSteps s e = 0 := by
  unfold numSteps; omega

theorem numSteps_succ {s e : Int} (h : s ≤ e) :
    numSteps s e = numSteps (s + 4) e + 1 := by
  unfold numSteps; omega

theorem numSteps_pos {s e : Int} (h : s ≤ e) : 1 ≤ numSteps s e := by
  unfold numSteps; omega

theorem numSteps_antitone {s s' e : Int} (h : s ≤ s') :
    numSteps s' e ≤ numSteps s e := by
  unfold numSteps; omega

theorem numStepsDown_eq_zero {s e : Int} (h : s < e) : numStepsDown s e = 0 := by
  unfold numStepsDown; omega

theorem numStepsDown_succ {s e : Int} (h : e ≤ s) :
    numStepsDown s e = numStepsDown (s - 4) e + 1 := by
  unfold numStepsDown; omega

theorem ascAddrs_eq_nil {s e : Int} (h : e < s) : ascAddrs s e = [] := by
  unfold ascAddrs
  rw [numSteps_eq_zero h]
  rfl

theorem ascAddrs_eq_cons {s e : Int} (h : s ≤ e) :
    ascAddrs s e = s :: ascAddrs (s + 4) e := by
  unfold ascAddrs
  rw [numSteps_succ h, List.range_succ_eq_map, List.map_cons, List.map_map]
  refine congrArg₂ _ (by simp) (List.map_congr_left ?_)
  intro k _
  simp [Function.comp]
  ring

theorem descAddrs_eq_nil {s e : Int} (h : s < e) : descAddrs s e = [] := by
  unfold descAddrs
  rw [numStepsDown_eq_zero h]
  rfl

theorem descAddrs_eq_cons {s e : Int} (h : e ≤ s) :
    descAddrs s e = s :: descAddrs (s - 4) e := by
  unfold descAddrs
  rw [numStepsDown_succ h, List.range_succ_eq_map, List.map_cons, List.map_map]
  refine congrArg₂ _ (by simp) (List.map_congr_left ?_)
  intro k _
  simp [Function.comp]
  ring

theorem findNextGo_eq_firstHit (P : Env) (pat : MIPSInstruction) (e : Int)
    (nb r : Bool) (dw : List (Option String)) :
    ∀ fuel ea, numSteps ea e < fuel →
      findNextGo P pat e nb r dw fuel ea = firstHit P pat nb r dw (ascAddrs ea e) := by
  intro fuel
  induction fuel with
  | zero => intro ea h; omega
  | succ f ih =>
    intro ea h
    by_cases hle : ea ≤ e
    · rw [ascAddrs_eq_cons hle]
      show (if ea ≤ e then _ else _) = _
      rw [if_pos hle]
      unfold firstHit
      by_cases hm : does_instruction_match P ea pat r
      · simp [hm]
      · simp only [hm, if_false, Bool.false_eq_true]
        by_cases hb : (nb && is_bad_instruction P ea ['j', 'b'] dw) = true
        · simp [hb]
        · simp only [hb, if_false, Bool.false_eq_true]
          show findNextGo P pat e nb r dw f (ea + INSIZE) = _
          have : numSteps (ea + 4) e < f := by
            have := numSteps_succ hle
            omega
          simpa [INSIZE] using ih (ea + 4) this
    · rw [ascAddrs_eq_nil (by omega)]
      show (if ea ≤ e then _ else _) = _
      rw [if_neg hle]
      rfl

theorem findPrevGo_eq_firstHit (P : Env) (pat : MIPSInstruction) (e : Int)
    (nb r : Bool) (dw : List (Option String)) :
    ∀ fuel ea, numStepsDown ea e < fuel →
      findPrevGo P pat e nb r dw fuel ea = firstHit P pat nb r dw (descAddrs ea e) := by
  intro fuel
  induction fuel with
  | zero => intro ea h; omega
  | succ f ih =>
    intro ea h
    by_cases hle : e ≤ ea
    · rw [descAddrs_eq_cons hle]
      show (if e ≤ ea then _ else _) = _
      rw [if_pos hle]
      unfold firstHit
      by_cases hm : does_instruction_match P ea pat r
      · simp [hm]
      · simp only [hm, if_false, Bool.false_eq_true]
        by_cases hb : (nb && is_bad_instruction P ea ['j', 'b'] dw) = true
        · simp [hb]
        · simp only [hb, if_false, Bool.false_eq_true]
          show findPrevGo P pat e nb r dw f (ea - INSIZE) = _
          have : numStepsDown (ea - 4) e < f := by
            have := numStepsDown_succ hle
            omega
          simpa [INSIZE] using ih (ea - 4) this
    · rw [descAddrs_eq_nil (by omega)]
      show (if e ≤ ea then _ else _) = _
      rw [if_neg hle]
      rfl

theorem find_next_eq_firstHit (P : Env) (s : Int) (pat : MIPSInstruction) (e : Int)
    (nb r : Bool) (dw : List (Option String)) :
    find_next_instruction_ea P s pat e nb r dw = firstHit P pat nb r dw (ascAddrs s e) :=
  findNextGo_eq_firstHit P pat e nb r dw (numSteps s e + 1) s (by omega)

theorem find_prev_eq_firstHit (P : Env) (s : Int) (pat : MIPSInstruction) (e : Int)
    (nb r : Bool) (dw : List (Option String)) :
    find_prev_instruction_ea P s pat e nb r dw = firstHit P pat nb r dw (descAddrs s e) :=
  findPrevGo_eq_firstHit P pat e nb r dw (numStepsDown s e + 1) s (by omega)

theorem firstHit_some_split (P : Env) (pat : MIPSInstruction) (nb r : Bool)
    (dw : List (Option String)) :
    ∀ l a, firstHit P pat nb r dw l = some a →
      ∃ l1 l2, l = l1 ++ a :: l2 ∧ does_instruction_match P a pat r = true ∧
        ∀ b ∈ l1, does_instruction_match P b pat r = false ∧
          (nb && is_bad_instruction P b ['j', 'b'] dw) = false := by
  intro l
  induction l with
  | nil => intro a h; exact absurd h (by simp [firstHit])
  | cons x rest ih =>
    intro a h
    unfold firstHit at h
    by_cases hm : does_instruction_match P x pat r
    · rw [if_pos hm] at h
      obtain rfl : x = a := by injection h
      exact ⟨[], rest, rfl, hm, by simp⟩
    · rw [if_neg hm] at h
      by_cases hb : (nb && is_bad_instruction P x ['j', 'b'] dw) = true
      · rw [if_pos hb] at h
        exact absurd h (by simp)
      · rw [if_neg hb] at h
        obtain ⟨l1, l2, rfl, hma, hall⟩ := ih a h
        refine ⟨x :: l1, l2, rfl, hma, ?_⟩
        intro b hb'
        rcases List.mem_cons.mp hb' with rfl | hbl
        · exact ⟨by simpa using hm, by simpa using hb⟩
        · exact hall b hbl

theorem firstHit_none_all_fail (P : Env) (pat : MIPSInstruction) (r : Bool)
    (dw : List (Option String)) :
    ∀ l, firstHit P pat false r dw l = none →
      ∀ b ∈ l, does_instruction_match P b pat r = false := by
  intro l
  induction l with
  | nil => intro _ b hb; exact absurd hb (by simp)
  | cons x rest ih =>
    intro h b hb
    unfold firstHit at h
    by_cases hm : does_instruction_match P x pat r
    · rw [if_pos hm] at h; exact absurd h (by simp)
    · rw [if_neg hm] at h
      simp only [Bool.false_and, Bool.false_eq_true, if_false] at h
      rcases List.mem_cons.mp hb with rfl | hbl
      · simpa using hm
      · exact ih h b hbl

theorem mem_ascAddrs_iff {s e a : Int} :
    a ∈ ascAddrs s e ↔ s ≤ a ∧ a ≤ e ∧ (4 : Int) ∣ a - s := by
  unfold ascAddrs
  simp only [List.mem_map, List.mem_range]
  constructor
  · rintro ⟨k, hk, rfl⟩
    refine ⟨by omega, ?_, ⟨(k : Int), by ring⟩⟩
    unfold numSteps at hk
    omega
  · rintro ⟨h1, h2, c, hc⟩
    refine ⟨c.toNat, ?_, ?_⟩
    · unfold numSteps
      omega
    · omega

theorem mem_descAddrs_iff {s e a : Int} :
    a ∈ descAddrs s e ↔ e ≤ a ∧ a ≤ s ∧ (4 : Int) ∣ s - a := by
  unfold descAddrs
  simp only [List.mem_map, List.mem_range]
  constructor
  · rintro ⟨k, hk, rfl⟩
    refine ⟨?_, by omega, ⟨(k : Int), by ring⟩⟩
    unfold numStepsDown at hk
    omega
  · rintro ⟨h1, h2, c, hc⟩
    refine ⟨c.toNat, ?_, ?_⟩
    · unfold numStepsDown
      omega
    · omega

theorem ascAddrs_pairwise (s e : Int) : (ascAddrs s e).Pairwise (· < ·) := by
  unfold ascAddrs
  exact List.Pairwise.map _ (fun a b h => by omega) (List.pairwise_lt_range _)

theorem descAddrs_pairwise (s e : Int) : (descAddrs s e).Pairwise (· > ·) := by
  unfold descAddrs
  exact List.Pairwise.map _ (fun a b h => by omega) (List.pairwise_lt_range _)

theorem find_next_some_bounds {P : Env} {s : Int} {pat : MIPSInstruction} {e : Int}
    {nb r : Bool} {dw : List (Option String)} {a : Int}
    (h : find_next_instruction_ea P s pat e nb r dw = some a) : s ≤ a ∧ a ≤ e := by
  rw [find_next_eq_firstHit] at h
  obtain ⟨l1, l2, hl, -, -⟩ := firstHit_some_split P pat nb r dw _ a h
  have ha : a ∈ ascAddrs s e := by rw [hl]; simp
  exact ⟨(mem_ascAddrs_iff.mp ha).1, (mem_ascAddrs_iff.mp ha).2.1⟩

theorem find_prev_some_bounds {P : Env} {s : Int} {pat : MIPSInstruction} {e : Int}
    {nb r : Bool} {dw : List (Option String)} {a : Int}
    (h : find_prev_instruction_ea P s pat e nb r dw = some a) : e ≤ a ∧ a ≤ s := by
  rw [find_prev_eq_firstHit] at h
  obtain ⟨l1, l2, hl, -, -⟩ := firstHit_some_split P pat nb r dw _ a h
  have ha : a ∈ descAddrs s e := by rw [hl]; simp
  exact ⟨(mem_descAddrs_iff.mp ha).1, (mem_descAddrs_iff.mp ha).2.1⟩

/-- One operand slot's comparison, in the comparison mode selected by
`regex` (regex-match when on, literal equality when off) — the body of the
`if regex: … elif operand == op: …` branch of `_does_instruction_match`. -/
def opOK (P : Env) (ea : Int) (regex : Bool) (i : Nat) (operand : Option String) : Bool :=
  if regex then P.re_match (operand.getD "") (P.opnd ea i)
  else operand.getD "" == P.opnd ea i

theorem opCounts_cons (P : Env) (ea : Int) (r : Bool) (i : Nat)
    (o : Option String) (rest : List (Option String)) :
    opCounts P ea r i (o :: rest) =
      if truthy o = true then
        if opOK P ea r i o = true then
          ((opCounts P ea r (i + 1) rest).1 + 1, (opCounts P ea r (i + 1) rest).2 + 1)
        else ((opCounts P ea r (i + 1) rest).1 + 1, (opCounts P ea r (i + 1) rest).2)
      else opCounts P ea r (i + 1) rest := by
  have h : opCounts P ea r i (o :: rest) =
      (let acc := opCounts P ea r (i + 1) rest;
       if truthy o then
         (let op := P.opnd ea i;
          if r then
            (if P.re_match (o.getD "") op then (acc.1 + 1, acc.2 + 1) else (acc.1 + 1, acc.2))
          else
            (if o.getD "" == op then (acc.1 + 1, acc.2 + 1) else (acc.1 + 1, acc.2)))
       else acc) := rfl
  rw [h]
  unfold opOK
  cases r <;> by_cases ht : truthy o = true <;> simp [ht]

theorem opCounts_snd_le_fst (P : Env) (ea : Int) (r : Bool) :
    ∀ (l : List (Option String)) (i : Nat), (opCounts P ea r i l).2 ≤ (opCounts P ea r i l).1 := by
  intro l
  induction l with
  | nil => intro i; simp [opCounts]
  | cons o rest ih =>
    intro i
    rw [opCounts_cons]
    by_cases ht : truthy o = true
    · rw [if_pos ht]
      by_cases hok : opOK P ea r i o = true
      · rw [if_pos hok]
        simpa using ih (i + 1)
      · rw [if_neg hok]
        have := ih (i + 1)
        simp only []
        omega
    · rw [if_neg ht]
      exact ih (i + 1)

theorem opCounts_eq_iff (P : Env) (ea : Int) (r : Bool) :
    ∀ (l : List (Option String)) (i : Nat),
      (opCounts P ea r i l).1 = (opCounts P ea r i l).2 ↔
        ∀ k, k < l.length → truthy (l.getD k none) = true →
          opOK P ea r (i + k) (l.getD k none) = true := by
  intro l
  induction l with
  | nil =>
    intro i
    constructor
    · intro _ k hk
      exact absurd hk (by simp)
    · intro _
      simp [opCounts]
  | cons o rest ih =>
    intro i
    rw [opCounts_cons]
    by_cases ht : truthy o = true
    · rw [if_pos ht]
      by_cases hok : opOK P ea r i o = true
      · rw [if_pos hok]
        simp only []
        constructor
        · intro h k hk htk
          cases k with
          | zero =>
            simp only [List.getD_cons_zero] at htk ⊢
            simpa using hok
          | succ k =>
            simp only [List.getD_cons_succ] at htk ⊢
            have harr : i + (k + 1) = i + 1 + k := by omega
            rw [harr]
            have h' : (opCounts P ea r (i + 1) rest).1 = (opCounts P ea r (i + 1) rest).2 := by
              omega
            exact (ih (i + 1)).mp h' k (by simp only [List.length_cons] at hk; omega) htk
        · intro h
          have h' := (ih (i + 1)).mpr ?_
          · omega
          · intro k hk htk
            have := h (k + 1) (by simp only [List.length_cons]; omega)
              (by simp only [List.getD_cons_succ]; exact htk)
            simp only [List.getD_cons_succ] at this
            have harr : i + (k + 1) = i + 1 + k := by omega
            rw [harr] at this
            exact this
      · rw [if_neg hok]
        constructor
        · intro h
          exfalso
          have := opCounts_snd_le_fst P ea r rest (i + 1)
          simp only [] at h
          omega
        · intro h
          refine absurd ?_ hok
          have := h 0 (by simp) (by simp only [List.getD_cons_zero]; exact ht)
          simp only [List.getD_cons_zero, Nat.add_zero] at this
          exact this
    · rw [if_neg ht]
      constructor
      · intro h k hk htk
        cases k with
        | zero =>
          simp only [List.getD_cons_zero] at htk
          exact absurd htk (by simp_all)
        | succ k =>
          simp only [List.getD_cons_succ] at htk ⊢
          have harr : i + (k + 1) = i + 1 + k := by omega
          rw [harr]
          exact (ih (i + 1)).mp h k (by simp only [List.length_cons] at hk; omega) htk
      · intro h
        refine (ih (i + 1)).mpr ?_
        intro k hk htk
        have := h (k + 1) (by simp only [List.length_cons]; omega)
          (by simp only [List.getD_cons_succ]; exact htk)
        simp only [List.getD_cons_succ] at this
        have harr : i + (k + 1) = i + 1 + k := by omega
        rw [harr] at this
        exact this

theorem opOK_iff_of_truthy {P : Env} {ea : Int} {r : Bool} {i : Nat} {o : Option String}
    (ht : truthy o = true) :
    opOK P ea r i o = true ↔
      ((r = false ∧ o = some (P.opnd ea i)) ∨
       (r = true ∧ P.re_match (o.getD "") (P.opnd ea i) = true)) := by
  obtain ⟨s, rfl⟩ : ∃ s, o = some s := by
    cases o
    · exact absurd ht (by simp [truthy])
    · exact ⟨_, rfl⟩
  unfold opOK
  cases r
  · simp [beq_iff_eq]
  · simp

theorem mnem_cond_iff (P : Env) (ea : Int) (p : MIPSInstruction) (r : Bool)
    (hr : ∀ s, P.re_match s s = true) :
    (!truthy p.mnem || p.mnem == some (P.mnem ea)
      || (r && P.re_match (p.mnem.getD "") (P.mnem ea))) = true ↔
      (truthy p.mnem = false ∨
       (r = false ∧ p.mnem = some (P.mnem ea)) ∨
       (r = true ∧ P.re_match (p.mnem.getD "") (P.mnem ea) = true)) := by
  constructor
  · intro h
    simp only [Bool.or_eq_true, Bool.and_eq_true] at h
    rcases h with (h1 | h2) | ⟨hr1, hre⟩
    · exact Or.inl (by simpa using h1)
    · have he : p.mnem = some (P.mnem ea) := beq_iff_eq.mp h2
      cases r
      · exact Or.inr (Or.inl ⟨rfl, he⟩)
      · refine Or.inr (Or.inr ⟨rfl, ?_⟩)
        rw [he]
        exact hr (P.mnem ea)
    · exact Or.inr (Or.inr ⟨hr1, hre⟩)
  · intro h
    rcases h with h | ⟨hr0, he⟩ | ⟨hr1, hre⟩
    · simp [h]
    · simp [he]
    · simp [hr1, hre]

/-- C2: for every decoded instruction (the one at `ea`), pattern `p` and
regex flag `r`, `_does_instruction_match` returns true iff the mnemonic
condition holds — `p`'s mnemonic absent, or equal to the instruction's
mnemonic when `r` is off, or an anchored regex match when `r` is on (the
regex collaborator being assumed to match every string against itself) —
and every present operand slot of `p` matches the instruction operand of
the same index under the same comparison mode; in particular a pattern with
every field absent matches every instruction, and a partial operand match
does not count as a match. -/
theorem instruction_match_spec (P : Env) (ea : Int) (p : MIPSInstruction) (r : Bool)
    (hr : ∀ s, P.re_match s s = true) :
    (does_instruction_match P ea p r = true ↔
      ((truthy p.mnem = false ∨
        (r = false ∧ p.mnem = some (P.mnem ea)) ∨
        (r = true ∧ P.re_match (p.mnem.getD "") (P.mnem ea) = true)) ∧
       (∀ k, k < 3 → truthy (p.operands.getD k none) = true →
         ((r = false ∧ p.operands.getD k none = some (P.opnd ea k)) ∨
          (r = true ∧ P.re_match ((p.operands.getD k none).getD "") (P.opnd ea k) = true)))))
    ∧ (truthy p.mnem = false → truthy p.opnd0 = false → truthy p.opnd1 = false →
        truthy p.opnd2 = false → does_instruction_match P ea p r = true) := by
  have hd : does_instruction_match P ea p r =
      (if !truthy p.mnem || p.mnem == some (P.mnem ea)
          || (r && P.re_match (p.mnem.getD "") (P.mnem ea)) then
        ((opCounts P ea r 0 p.operands).1 == (opCounts P ea r 0 p.operands).2)
      else false) := rfl
  constructor
  · rw [hd]
    by_cases hcond : (!truthy p.mnem || p.mnem == some (P.mnem ea)
        || (r && P.re_match (p.mnem.getD "") (P.mnem ea))) = true
    · rw [if_pos hcond]
      rw [beq_iff_eq, opCounts_eq_iff]
      constructor
      · intro h
        refine ⟨(mnem_cond_iff P ea p r hr).mp hcond, ?_⟩
        intro k hk htk
        have := h k (by simpa [MIPSInstruction.operands] using hk) htk
        rw [Nat.zero_add] at this
        exact (opOK_iff_of_truthy htk).mp this
      · rintro ⟨-, hslots⟩ k hk htk
        rw [Nat.zero_add]
        exact (opOK_iff_of_truthy htk).mpr
          (hslots k (by simpa [MIPSInstruction.operands] using hk) htk)
    · rw [if_neg hcond]
      constructor
      · intro h
        exact absurd h (by decide)
      · rintro ⟨hm, -⟩
        exact absurd ((mnem_cond_iff P ea p r hr).mpr hm) hcond
  · intro h0 h1 h2 h3
    rw [hd, if_pos (by simp [h0])]
    rw [beq_iff_eq, opCounts_eq_iff]
    intro k hk htk
    exfalso
    rcases k with _ | _ | _ | k
    · revert htk
      simp [MIPSInstruction.operands, h1]
    · revert htk
      simp [MIPSInstruction.operands, h2]
    · revert htk
      simp [MIPSInstruction.operands, h3]
    · simp only [MIPSInstruction.operands, List.length_cons, List.length_nil] at hk
      omega

theorem head_in_iff (s : String) :
    head_in s ['j', 'b'] = true ↔ ∃ c, s.data.head? = some c ∧ (c = 'j' ∨ c = 'b') := by
  unfold head_in
  rcases hd : s.data with _ | ⟨c, cs⟩
  · simp
  · simp [List.contains]

/-- C7: `_is_bad_instruction` (with its default jump/branch prefix set)
returns true exactly when the instruction's mnemonic begins with `'j'` or
`'b'`, or when the decoder flags the instruction as changing operand 0 and
that first operand equals some register of the protected set; in all other
cases it returns false — in particular an instruction writing a protected
register into its second or third operand slot is not flagged, since only
operand 0 is ever consulted. -/
theorem is_bad_instruction_spec (P : Env) (ea : Int) (dw : List (Option String)) :
    (is_bad_instruction P ea ['j', 'b'] dw = true ↔
      ((∃ c, (P.mnem ea).data.head? = some c ∧ (c = 'j' ∨ c = 'b')) ∨
       (P.chg1 ea = true ∧ some (P.opnd ea 0) ∈ dw)))
    ∧ (head_in (P.mnem ea) ['j', 'b'] = false → some (P.opnd ea 0) ∉ dw →
        is_bad_instruction P ea ['j', 'b'] dw = false) := by
  constructor
  · constructor
    · intro h
      unfold is_bad_instruction at h
      by_cases hh : head_in (P.mnem ea) ['j', 'b'] = true
      · exact Or.inl ((head_in_iff (P.mnem ea)).mp hh)
      · rw [if_neg hh] at h
        right
        simp only [List.any_eq_true, Bool.and_eq_true, beq_iff_eq] at h
        obtain ⟨reg, hmem, hchg, heq⟩ := h
        exact ⟨hchg, heq ▸ hmem⟩
    · intro h
      unfold is_bad_instruction
      rcases h with h | ⟨hchg, hmem⟩
      · rw [if_pos ((head_in_iff (P.mnem ea)).mpr h)]
      · by_cases hh : head_in (P.mnem ea) ['j', 'b'] = true
        · rw [if_pos hh]
        · rw [if_neg hh]
          simp only [List.any_eq_true, Bool.and_eq_true, beq_iff_eq]
          exact ⟨some (P.opnd ea 0), hmem, hchg, rfl⟩
  · intro hh hnm
    unfold is_bad_instruction
    rw [if_neg (by simp [hh])]
    rw [List.any_eq_false]
    intro reg hreg
    simp only [Bool.and_eq_true, beq_iff_eq, not_and]
    intro _ heq
    exact hnm (heq ▸ hreg)

/-- C6: `_find_next_instruction_ea` visits exactly the addresses
`start, start+4, …` up to and including `end` (the window `ascAddrs`),
returning the first visited address whose instruction matches the pattern;
before a match it can return "not found" early at an unsafe-to-cross
instruction only when `no_baddies` is set (with the flag off, `none` means
no visited address matches); the flag never rejects an address that itself
matches; `_find_prev_instruction_ea` mirrors this on `start, start-4, …`
down to and including `end`; and the source's default arguments are
`no_baddies=False` for the forward primitive and `no_baddies=True` for the
backward one. -/
theorem windowed_search_spec (P : Env) (pat : MIPSInstruction) (e : Int) (r : Bool)
    (dw : List (Option String)) :
    (∀ s a, a ∈ ascAddrs s e ↔ s ≤ a ∧ a ≤ e ∧ (4 : Int) ∣ a - s)
    ∧ (∀ s a, a ∈ descAddrs s e ↔ e ≤ a ∧ a ≤ s ∧ (4 : Int) ∣ s - a)
    ∧ (∀ s nb a, find_next_instruction_ea P s pat e nb r dw = some a →
        a ∈ ascAddrs s e ∧ does_instruction_match P a pat r = true ∧
          ∀ b ∈ ascAddrs s e, b < a →
            does_instruction_match P b pat r = false ∧
            (nb && is_bad_instruction P b ['j', 'b'] dw) = false)
    ∧ (∀ s a, find_next_instruction_ea P s pat e false r dw = none →
        a ∈ ascAddrs s e → does_instruction_match P a pat r = false)
    ∧ (∀ s nb, does_instruction_match P s pat r = true → s ≤ e →
        find_next_instruction_ea P s pat e nb r dw = some s)
    ∧ (∀ s nb a, find_prev_instruction_ea P s pat e nb r dw = some a →
        a ∈ descAddrs s e ∧ does_instruction_match P a pat r = true ∧
          ∀ b ∈ descAddrs s e, a < b →
            does_instruction_match P b pat r = false ∧
            (nb && is_bad_instruction P b ['j', 'b'] dw) = false)
    ∧ (∀ s a, find_prev_instruction_ea P s pat e false r dw = none →
        a ∈ descAddrs s e → does_instruction_match P a pat r = false)
    ∧ (∀ s nb, does_instruction_match P s pat r = true → e ≤ s →
        find_prev_instruction_ea P s pat e nb r dw = some s)
    ∧ (∀ s, find_next_instruction_ea_dflt P s pat e
          = find_next_instruction_ea P s pat e false false []
        ∧ find_prev_instruction_ea_dflt P s pat e
          = find_prev_instruction_ea P s pat e true false []) := by
  refine ⟨fun s a => mem_ascAddrs_iff, fun s a => mem_descAddrs_iff,
    ?_, ?_, ?_, ?_, ?_, ?_, fun s => ⟨rfl, rfl⟩⟩
  · intro s nb a h
    rw [find_next_eq_firstHit] at h
    obtain ⟨l1, l2, hl, hm, hall⟩ := firstHit_some_split P pat nb r dw _ a h
    have ha : a ∈ ascAddrs s e := by rw [hl]; simp
    refine ⟨ha, hm, ?_⟩
    intro b hb hlt
    have hpw := ascAddrs_pairwise s e
    rw [hl] at hpw hb
    rcases List.mem_append.mp hb with hb1 | hb2
    · exact hall b hb1
    · rcases List.mem_cons.mp hb2 with rfl | hb3
      · omega
      · exfalso
        have := (List.pairwise_cons.mp (List.pairwise_append.mp hpw).2.1).1 b hb3
        omega
  · intro s a h ha
    rw [find_next_eq_firstHit] at h
    exact firstHit_none_all_fail P pat r dw _ h a ha
  · intro s nb hm hle
    rw [find_next_eq_firstHit, ascAddrs_eq_cons hle]
    unfold firstHit
    rw [if_pos hm]
  · intro s nb a h
    rw [find_prev_eq_firstHit] at h
    obtain ⟨l1, l2, hl, hm, hall⟩ := firstHit_some_split P pat nb r dw _ a h
    have ha : a ∈ descAddrs s e := by rw [hl]; simp
    refine ⟨ha, hm, ?_⟩
    intro b hb hlt
    have hpw := descAddrs_pairwise s e
    rw [hl] at hpw hb
    rcases List.mem_append.mp hb with hb1 | hb2
    · exact hall b hb1
    · rcases List.mem_cons.mp hb2 with rfl | hb3
      · omega
      · exfalso
        have := (List.pairwise_cons.mp (List.pairwise_append.mp hpw).2.1).1 b hb3
        simp only [gt_iff_lt] at this
        omega
  · intro s a h ha
    rw [find_prev_eq_firstHit] at h
    exact firstHit_none_all_fail P pat r dw _ h a ha
  · intro s nb hm hle
    rw [find_prev_eq_firstHit, descAddrs_eq_cons hle]
    unfold firstHit
    rw [if_pos hm]

/-- C9: both windowed searches are bounded loops — each equals a fold over
an explicit finite address list stepping by 4 bytes (`ascAddrs` ascending,
`descAddrs` descending), whose length is the step count `numSteps` resp.
`numStepsDown`; the fold returns early on a match or (when enabled) an
unsafe instruction, and otherwise terminates by exhausting the window. -/
theorem search_loops_bounded (P : Env) (pat : MIPSInstruction) (s e : Int)
    (nb r : Bool) (dw : List (Option String)) :
    find_next_instruction_ea P s pat e nb r dw = firstHit P pat nb r dw (ascAddrs s e)
    ∧ find_prev_instruction_ea P s pat e nb r dw = firstHit P pat nb r dw (descAddrs s e)
    ∧ (ascAddrs s e).length = numSteps s e
    ∧ (descAddrs s e).length = numStepsDown s e := by
  refine ⟨find_next_eq_firstHit P s pat e nb r dw, find_prev_eq_firstHit P s pat e nb r dw, ?_, ?_⟩
  · unfold ascAddrs
    simp
  · unfold descAddrs
    simp

/-- The `for jump in jumps:` loop of `_find_controllable_jumps`: each jump
pattern in turn is sought forward from one instruction past the current
position (`ea + ins_size` in the source, where `ea` is moved to each found
jump), with `no_baddies=True` and the idiom register protected; every hit
emits a "Controllable Jump" `ROPGadget` whose entry is the control
instruction `ci`.  Returns the emitted gadgets and the final position. -/
def jumpScan (P : Env) (clobber : List (Option String)) (end_ea : Int)
    (ci : MIPSInstruction) : List MIPSInstruction → Int → List ROPGadget × Int
  | [], cur => ([], cur)
  | jump :: rest, cur =>
    match find_next_instruction_ea P (cur + INSIZE) jump end_ea true false clobber with
    | none => jumpScan P clobber end_ea ci rest cur
    | some jump_ea =>
      let r := jumpScan P clobber end_ea ci rest jump_ea
      (⟨ci, get_instruction P jump_ea, none, "Controllable Jump"⟩ :: r.1, r.2)

/-- The `while ea <= end_ea:` loop of `_find_controllable_jumps` for one
control idiom: forward-scan for the control pattern; on a hit decode it,
and when its second operand is truthy run the jump loop and resume one
instruction past the final position, otherwise resume one instruction past
the control instruction; when the control scan fails the loop ends (the
source's `ea` stays `BADADDR`, which exceeds any segment end).  The `Nat`
fuel only realizes termination and is chosen in `scanIdiom` to exceed the
iteration count. -/
def scanIdiomGo (P : Env) (control : MIPSInstruction) (jumps : List MIPSInstruction)
    (clobber : List (Option String)) (end_ea : Int) : Nat → Int → List ROPGadget
  | 0, _ => []
  | fuel + 1, ea =>
    if ea ≤ end_ea then
      match find_next_instruction_ea P ea control end_ea false false [] with
      | none => []
      | some c =>
        let ci := get_instruction P c
        if truthy ci.opnd1 then
          let r := jumpScan P clobber end_ea ci jumps c
          r.1 ++ scanIdiomGo P control jumps clobber end_ea fuel (r.2 + INSIZE)
        else
          scanIdiomGo P control jumps clobber end_ea fuel (c + INSIZE)
    else []

/-- One full pass of the `_find_controllable_jumps` region loop for one
control idiom, starting at `ea`. -/
def scanIdiom (P : Env) (control : MIPSInstruction) (jumps : List MIPSInstruction)
    (clobber : List (Option String)) (end_ea ea : Int) : List ROPGadget :=
  scanIdiomGo P control jumps clobber end_ea (numSteps ea end_ea + 1) ea

/-- `t9_controls` of `_find_controllable_jumps`: `MIPSInstruction("move", "$t9")`. -/
def t9_control : MIPSInstruction := ⟨some "move", some "$t9", none, none, BADADDR⟩

/-- `t9_jumps`: `MIPSInstruction("jalr", "$t9")` and `MIPSInstruction("jr", "$t9")`. -/
def t9_jumps : List MIPSInstruction :=
  [⟨some "jalr", some "$t9", none, none, BADADDR⟩, ⟨some "jr", some "$t9", none, none, BADADDR⟩]

/-- `ra_controls`: `MIPSInstruction("lw", "$ra")`. -/
def ra_control : MIPSInstruction := ⟨some "lw", some "$ra", none, none, BADADDR⟩

/-- `ra_jumps`: `MIPSInstruction("jr", "$ra")`. -/
def ra_jumps : List MIPSInstruction := [⟨some "jr", some "$ra", none, none, BADADDR⟩]

/-- `t9_musnt_clobber = ["$t9"]`. -/
def t9_musnt_clobber : List (Option String) := [some "$t9"]

/-- `ra_musnt_clobber = ["$ra"]`. -/
def ra_musnt_clobber : List (Option String) := [some "$ra"]

/-- `MIPSROPFinder._find_controllable_jumps`: scan the region once per
control idiom (`t9_controls + ra_controls`, each a single pattern) and
concatenate the results in that order. -/
def find_controllable_jumps (P : Env) (start_ea end_ea : Int) : List ROPGadget :=
  scanIdiom P t9_control t9_jumps t9_musnt_clobber end_ea start_ea ++
  scanIdiom P ra_control ra_jumps ra_musnt_clobber end_ea start_ea

theorem scanIdiomGo_succ (P : Env) (control : MIPSInstruction) (jumps : List MIPSInstruction)
    (clobber : List (Option String)) (e : Int) (fuel : Nat) (ea : Int) :
    scanIdiomGo P control jumps clobber e (fuel + 1) ea =
      if ea ≤ e then
        match find_next_instruction_ea P ea control e false false [] with
        | none => []
        | some c =>
          if truthy (get_instruction P c).opnd1 then
            (jumpScan P clobber e (get_instruction P c) jumps c).1 ++
              scanIdiomGo P control jumps clobber e fuel
                ((jumpScan P clobber e (get_instruction P c) jumps c).2 + INSIZE)
          else
            scanIdiomGo P control jumps clobber e fuel (c + INSIZE)
      else [] := rfl

theorem jumpScan_snd_ge (P : Env) (clobber : List (Option String)) (e : Int)
    (ci : MIPSInstruction) :
    ∀ (js : List MIPSInstruction) (cur : Int), cur ≤ (jumpScan P clobber e ci js cur).2 := by
  intro js
  induction js with
  | nil => intro cur; exact le_refl cur
  | cons jump rest ih =>
    intro cur
    show cur ≤ (match find_next_instruction_ea P (cur + INSIZE) jump e true false clobber with
      | none => jumpScan P clobber e ci rest cur
      | some jump_ea =>
        let r := jumpScan P clobber e ci rest jump_ea
        (⟨ci, get_instruction P jump_ea, none, "Controllable Jump"⟩ :: r.1, r.2)).2
    cases hf : find_next_instruction_ea P (cur + INSIZE) jump e true false clobber with
    | none => exact ih cur
    | some jump_ea =>
      have hb := find_next_some_bounds hf
      have hI : INSIZE = (4 : Int) := rfl
      have := ih jump_ea
      simp only []
      omega

theorem jumpScan_snd_le (P : Env) (clobber : List (Option String)) (e : Int)
    (ci : MIPSInstruction) :
    ∀ (js : List MIPSInstruction) (cur : Int), cur ≤ e →
      (jumpScan P clobber e ci js cur).2 ≤ e := by
  intro js
  induction js with
  | nil => intro cur h; exact h
  | cons jump rest ih =>
    intro cur h
    show (match find_next_instruction_ea P (cur + INSIZE) jump e true false clobber with
      | none => jumpScan P clobber e ci rest cur
      | some jump_ea =>
        let r := jumpScan P clobber e ci rest jump_ea
        (⟨ci, get_instruction P jump_ea, none, "Controllable Jump"⟩ :: r.1, r.2)).2 ≤ e
    cases hf : find_next_instruction_ea P (cur + INSIZE) jump e true false clobber with
    | none => exact ih cur h
    | some jump_ea =>
      have hb := find_next_some_bounds hf
      exact ih jump_ea hb.2

theorem jumpScan_mem (P : Env) (clobber : List (Option String)) (e : Int)
    (ci : MIPSInstruction) :
    ∀ (js : List MIPSInstruction) (cur : Int) (g : ROPGadget),
      g ∈ (jumpScan P clobber e ci js cur).1 →
        g.entry = ci ∧ g.operation = none ∧ g.description = "Controllable Jump" ∧
        ∃ j, cur < j ∧ j ≤ e ∧ g.exit = get_instruction P j := by
  intro js
  induction js with
  | nil => intro cur g h; exact absurd h (by simp [jumpScan])
  | cons jump rest ih =>
    intro cur g h
    have hshape : (jumpScan P clobber e ci (jump :: rest) cur) =
        (match find_next_instruction_ea P (cur + INSIZE) jump e true false clobber with
        | none => jumpScan P clobber e ci rest cur
        | some jump_ea =>
          let r := jumpScan P clobber e ci rest jump_ea
          (⟨ci, get_instruction P jump_ea, none, "Controllable Jump"⟩ :: r.1, r.2)) := rfl
    rw [hshape] at h
    cases hf : find_next_instruction_ea P (cur + INSIZE) jump e true false clobber with
    | none =>
      rw [hf] at h
      exact ih cur g h
    | some jump_ea =>
      rw [hf] at h
      have hb := find_next_some_bounds hf
      have hI : INSIZE = (4 : Int) := rfl
      simp only [] at h
      rcases List.mem_cons.mp h with rfl | h2
      · exact ⟨rfl, rfl, rfl, jump_ea, by omega, hb.2, rfl⟩
      · obtain ⟨h1, h2', h3, j, hj1, hj2, hj3⟩ := ih jump_ea g h2
        exact ⟨h1, h2', h3, j, by omega, hj2, hj3⟩

theorem numSteps_resume_lt {ea resume e : Int} {f : Nat} (hle : ea ≤ e)
    (hres : ea + 4 ≤ resume) (hf : numSteps ea e < f + 1) : numSteps resume e < f := by
  have h1 := numSteps_succ hle
  have h2 := numSteps_antitone (e := e) hres
  have h3 := numSteps_pos hle
  omega

theorem scanIdiomGo_stable (P : Env) (control : MIPSInstruction)
    (jumps : List MIPSInstruction) (clobber : List (Option String)) (e : Int) :
    ∀ (f1 f2 : Nat) (ea : Int), numSteps ea e < f1 → numSteps ea e < f2 →
      scanIdiomGo P control jumps clobber e f1 ea =
      scanIdiomGo P control jumps clobber e f2 ea := by
  intro f1
  induction f1 with
  | zero => intro f2 ea h1 _; omega
  | succ f ih =>
    intro f2 ea h1 h2
    obtain ⟨f2', rfl⟩ : ∃ f2', f2 = f2' + 1 := ⟨f2 - 1, by omega⟩
    rw [scanIdiomGo_succ, scanIdiomGo_succ]
    by_cases hle : ea ≤ e
    · rw [if_pos hle, if_pos hle]
      cases hc : find_next_instruction_ea P ea control e false false [] with
      | none => rfl
      | some c =>
        obtain ⟨hac, hce⟩ := find_next_some_bounds hc
        simp only []
        by_cases ht : truthy (get_instruction P c).opnd1 = true
        · rw [if_pos ht, if_pos ht]
          congr 1
          have hge := jumpScan_snd_ge P clobber e (get_instruction P c) jumps c
          have hI : INSIZE = (4 : Int) := rfl
          have hres : ea + 4 ≤ (jumpScan P clobber e (get_instruction P c) jumps c).2 + INSIZE := by
            omega
          exact ih f2' _ (numSteps_resume_lt hle hres h1) (numSteps_resume_lt hle hres h2)
        · rw [if_neg ht, if_neg ht]
          have hI : INSIZE = (4 : Int) := rfl
          have hres : ea + 4 ≤ c + INSIZE := by omega
          exact ih f2' _ (numSteps_resume_lt hle hres h1) (numSteps_resume_lt hle hres h2)
    · rw [if_neg hle, if_neg hle]

/-- C1: in the `_find_controllable_jumps` scan of a region (two idioms, each
run by `scanIdiom` with its own control pattern, jump patterns and protected
register, results concatenated), whenever the forward scan from the current
position finds a control-pattern occurrence at `c` whose source (second)
operand is present, the jump pattern is sought forward from immediately
after the control instruction (`c + INSIZE`) with unsafe-crossing stopping
enabled and the idiom's register protected; on a hit a "Controllable Jump"
transfer is emitted and the scan resumes immediately after the jump, and on
a miss the scan resumes immediately after the control instruction. -/
theorem controllable_jump_scan_step (P : Env) (control jp : MIPSInstruction)
    (clobber : List (Option String)) (e ea c : Int)
    (hc : find_next_instruction_ea P ea control e false false [] = some c)
    (hop : truthy (get_instruction P c).opnd1 = true) :
    (∀ s, find_controllable_jumps P s e =
        scanIdiom P t9_control t9_jumps t9_musnt_clobber e s ++
        scanIdiom P ra_control ra_jumps ra_musnt_clobber e s)
    ∧ (∀ j, find_next_instruction_ea P (c + INSIZE) jp e true false clobber = some j →
        scanIdiom P control [jp] clobber e ea =
          ⟨get_instruction P c, get_instruction P j, none, "Controllable Jump"⟩ ::
            scanIdiom P control [jp] clobber e (j + INSIZE))
    ∧ (find_next_instruction_ea P (c + INSIZE) jp e true false clobber = none →
        scanIdiom P control [jp] clobber e ea =
          scanIdiom P control [jp] clobber e (c + INSIZE)) := by
  obtain ⟨hac, hce⟩ := find_next_some_bounds hc
  have hle : ea ≤ e := le_trans hac hce
  have hI : INSIZE = (4 : Int) := rfl
  refine ⟨fun s => rfl, ?_, ?_⟩
  · intro j hj
    obtain ⟨hcj, hje⟩ := find_next_some_bounds hj
    unfold scanIdiom
    rw [scanIdiomGo_succ, if_pos hle, hc]
    simp only []
    rw [if_pos hop]
    have hjs : jumpScan P clobber e (get_instruction P c) [jp] c =
        ([⟨get_instruction P c, get_instruction P j, none, "Controllable Jump"⟩], j) := by
      show (match find_next_instruction_ea P (c + INSIZE) jp e true false clobber with
        | none => jumpScan P clobber e (get_instruction P c) [] c
        | some jump_ea =>
          let r := jumpScan P clobber e (get_instruction P c) [] jump_ea
          (⟨get_instruction P c, get_instruction P jump_ea, none, "Controllable Jump"⟩ :: r.1,
            r.2)) = _
      rw [hj]
      rfl
    rw [hjs]
    simp only [List.cons_append, List.nil_append]
    congr 1
    have hres : ea + 4 ≤ j + INSIZE := by omega
    exact scanIdiomGo_stable P control [jp] clobber e _ _ _
      (numSteps_resume_lt hle hres (by omega)) (by omega)
  · intro hj
    unfold scanIdiom
    rw [scanIdiomGo_succ, if_pos hle, hc]
    simp only []
    rw [if_pos hop]
    have hjs : jumpScan P clobber e (get_instruction P c) [jp] c = ([], c) := by
      show (match find_next_instruction_ea P (c + INSIZE) jp e true false clobber with
        | none => jumpScan P clobber e (get_instruction P c) [] c
        | some jump_ea =>
          let r := jumpScan P clobber e (get_instruction P c) [] jump_ea
          (⟨get_instruction P c, get_instruction P jump_ea, none, "Controllable Jump"⟩ :: r.1,
            r.2)) = _
      rw [hj]
      rfl
    rw [hjs]
    simp only [List.nil_append]
    have hres : ea + 4 ≤ c + INSIZE := by omega
    exact scanIdiomGo_stable P control [jp] clobber e _ _ _
      (numSteps_resume_lt hle hres (by omega)) (by omega)

theorem scanIdiomGo_mem_spec (P : Env) (control : MIPSInstruction)
    (jumps : List MIPSInstruction) (clobber : List (Option String)) (e : Int) :
    ∀ (fuel : Nat) (ea : Int) (g : ROPGadget),
      g ∈ scanIdiomGo P control jumps clobber e fuel ea →
        truthy g.entry.opnd1 = true ∧ ea ≤ g.entry.ea ∧ g.entry.ea < g.exit.ea ∧
        g.exit.ea ≤ e ∧ g.operation = none ∧ g.description = "Controllable Jump" := by
  intro fuel
  induction fuel with
  | zero => intro ea g h; exact absurd h (by simp [scanIdiomGo])
  | succ f ih =>
    intro ea g h
    rw [scanIdiomGo_succ] at h
    by_cases hle : ea ≤ e
    · rw [if_pos hle] at h
      cases hfc : find_next_instruction_ea P ea control e false false [] with
      | none =>
        rw [hfc] at h
        exact absurd h (by simp)
      | some c =>
        rw [hfc] at h
        obtain ⟨hac, hce⟩ := find_next_some_bounds hfc
        have hI : INSIZE = (4 : Int) := rfl
        simp only [] at h
        by_cases ht : truthy (get_instruction P c).opnd1 = true
        · rw [if_pos ht] at h
          rcases List.mem_append.mp h with h1 | h2
          · obtain ⟨hent, hopn, hdesc, j, hcj, hje, hexit⟩ :=
              jumpScan_mem P clobber e (get_instruction P c) jumps c g h1
            have hent_ea : g.entry.ea = c := by rw [hent]; rfl
            have hexit_ea : g.exit.ea = j := by rw [hexit]; rfl
            exact ⟨hent ▸ ht, by omega, by omega, by omega, hopn, hdesc⟩
          · obtain ⟨a1, a2, a3, a4, a5, a6⟩ := ih _ g h2
            have hge := jumpScan_snd_ge P clobber e (get_instruction P c) jumps c
            exact ⟨a1, by omega, a3, a4, a5, a6⟩
        · rw [if_neg ht] at h
          obtain ⟨a1, a2, a3, a4, a5, a6⟩ := ih _ g h
          exact ⟨a1, by omega, a3, a4, a5, a6⟩
    · rw [if_neg hle] at h
      exact absurd h (by simp)

/-- C10: every ControlTransfer emitted by `_find_controllable_jumps`
satisfies the invariant: its control instruction has a present second
(source) operand, the jump instruction's address is strictly greater than
the control instruction's address, and both addresses lie within the
scanned region's bounds. -/
theorem controllable_jump_invariants (P : Env) (s e : Int) (g : ROPGadget)
    (h : g ∈ find_controllable_jumps P s e) :
    truthy g.entry.opnd1 = true ∧ s ≤ g.entry.ea ∧ g.entry.ea < g.exit.ea ∧
    g.exit.ea ≤ e := by
  rcases List.mem_append.mp h with h1 | h1
  · obtain ⟨a1, a2, a3, a4, -, -⟩ := scanIdiomGo_mem_spec P t9_control t9_jumps
      t9_musnt_clobber e _ s g h1
    exact ⟨a1, a2, a3, a4⟩
  · obtain ⟨a1, a2, a3, a4, -, -⟩ := scanIdiomGo_mem_spec P ra_control ra_jumps
      ra_musnt_clobber e _ s g h1
    exact ⟨a1, a2, a3, a4⟩

/-- `system_load` of `_find_system_calls`:
`MIPSInstruction("la", "$t9", "system")`. -/
def system_load : MIPSInstruction := ⟨some "la", some "$t9", some "system", none, BADADDR⟩

/-- `stack_arg_zero` of `_find_system_calls`:
`MIPSInstruction("addiu", "$a0", "$sp")`. -/
def stack_arg_zero : MIPSInstruction := ⟨some "addiu", some "$a0", some "$sp", none, BADADDR⟩

/-- The per-call-site probe of `_find_system_calls`: look for the
first-argument setup exactly one instruction past the call (the delay
slot), else backward from the call down to 25 instructions earlier; when
found, look backward from one instruction before the call for the `$t9`
load of the routine address; when both succeed, build the "System call"
transfer (entry = the load, exit = the call, operation = the argument
setup). -/
def syscall_probe (P : Env) (ea : Int) : Option ROPGadget :=
  let a0_fwd := find_next_instruction_ea P (ea + INSIZE) stack_arg_zero (ea + INSIZE)
    false false []
  let a0_ea := match a0_fwd with
    | some x => some x
    | none => find_prev_instruction_ea P ea stack_arg_zero (ea - SEARCH_DEPTH * INSIZE)
        true false []
  match a0_ea with
  | none => none
  | some a0 =>
    match find_prev_instruction_ea P (ea - INSIZE) system_load (ea - SEARCH_DEPTH * INSIZE)
        true false [] with
    | none => none
    | some control_ea =>
      some ⟨get_instruction P control_ea, get_instruction P ea,
        some (get_instruction P a0), "System call"⟩

/-- The `for xref in XrefsTo(LocByName('system'))` loop of
`_find_system_calls`: a call-site inside the region whose mnemonic starts
with `'j'` or `'b'` is probed (a failed probe appends nothing) and the loop
continues; any other call-site executes the `else: break`, ending the loop.
The `ea += self.INSIZE` of the source is dead (the loop variable is
reassigned from the next xref) and has no rendering here. -/
def find_system_calls_go (P : Env) (start_ea end_ea : Int) : List Int → List ROPGadget
  | [] => []
  | ea :: rest =>
    if start_ea ≤ ea ∧ ea ≤ end_ea ∧ head_in (P.mnem ea) ['j', 'b'] = true then
      (match syscall_probe P ea with
       | some g => [g]
       | none => []) ++ find_system_calls_go P start_ea end_ea rest
    else []

/-- `MIPSROPFinder._find_system_calls`. -/
def find_system_calls (P : Env) (start_ea end_ea : Int) : List ROPGadget :=
  find_system_calls_go P start_ea end_ea P.xrefsToSystem

/-- `MIPSROPFinder._find_rop_gadgets`, with the session's cached
`self.controllable_jumps` passed explicitly: for each controllable jump,
regex-scan forward from the control instruction to one instruction past the
jump; failing that, regex-scan backward from the control instruction down
to 25 instructions earlier with the control's second operand protected; a
hit yields a `ROPGadget` (default description `"ROP gaget"`), a miss
contributes nothing. -/
def find_rop_gadgets (P : Env) (gadget : MIPSInstruction) :
    List ROPGadget → List ROPGadget
  | [] => []
  | cj :: rest =>
    let fwd := find_next_instruction_ea P cj.entry.ea gadget (cj.exit.ea + INSIZE)
      false true []
    let gadget_ea := match fwd with
      | some x => some x
      | none => find_prev_instruction_ea P cj.entry.ea gadget
          (cj.entry.ea - SEARCH_DEPTH * INSIZE) true true [cj.entry.opnd1]
    (match gadget_ea with
     | some x => [(⟨cj.entry, cj.exit, some (get_instruction P x), "ROP gaget"⟩ : ROPGadget)]
     | none => []) ++ find_rop_gadgets P gadget rest

/-- The gadget search as described by the specification: a `filterMap` over
the transfers in input order — forward regex scan first, backward
protected regex scan only on a forward miss, no entry for a transfer with
no match in either direction. -/
def rop_gadget_search_spec (P : Env) (gadget : MIPSInstruction)
    (transfers : List ROPGadget) : List ROPGadget :=
  transfers.filterMap (fun cj =>
    match find_next_instruction_ea P cj.entry.ea gadget (cj.exit.ea + INSIZE)
        false true [] with
    | some x => some ⟨cj.entry, cj.exit, some (get_instruction P x), "ROP gaget"⟩
    | none =>
      match find_prev_instruction_ea P cj.entry.ea gadget
          (cj.entry.ea - SEARCH_DEPTH * INSIZE) true true [cj.entry.opnd1] with
      | some x => some ⟨cj.entry, cj.exit, some (get_instruction P x), "ROP gaget"⟩
      | none => none)

/-- The `__init__` scan of `MIPSROPFinder`: over the provider's CODE
segments, accumulate the system calls and the controllable jumps (in that
order per segment, matching the two `+=` lines). -/
def analyze (P : Env) : List ROPGadget × List ROPGadget :=
  P.code_segments.foldl
    (fun acc seg =>
      (acc.1 ++ find_system_calls P seg.1 seg.2,
       acc.2 ++ find_controllable_jumps P seg.1 seg.2))
    ([], [])

/-- C3: for every transfer sequence and pattern, `_find_rop_gadgets`
processes the transfers in input order, trying for each one a regex forward
scan from the control instruction through one instruction past the jump
and, only on failure, a regex backward scan from the control instruction
bounded to 25 instructions earlier with unsafe-crossing protection on the
control's second operand; the first directional success yields the gadget's
operation, and a transfer with no match in either direction is simply
omitted (so the result is never longer than the input). -/
theorem rop_gadget_search_matches_spec (P : Env) (gadget : MIPSInstruction)
    (transfers : List ROPGadget) :
    find_rop_gadgets P gadget transfers = rop_gadget_search_spec P gadget transfers
    ∧ (find_rop_gadgets P gadget transfers).length ≤ transfers.length := by
  have heq : ∀ ts : List ROPGadget,
      find_rop_gadgets P gadget ts = rop_gadget_search_spec P gadget ts := by
    intro ts
    induction ts with
    | nil => rfl
    | cons cj rest ih =>
      unfold rop_gadget_search_spec at ih ⊢
      rw [List.filterMap_cons]
      simp only [find_rop_gadgets]
      cases hf : find_next_instruction_ea P cj.entry.ea gadget
          (cj.exit.ea + INSIZE) false true [] with
      | some x =>
        simp only [hf, ih]
        rfl
      | none =>
        cases hb : find_prev_instruction_ea P cj.entry.ea gadget
            (cj.entry.ea - SEARCH_DEPTH * INSIZE) true true [cj.entry.opnd1] with
        | some x =>
          simp only [hf, hb, ih]
          rfl
        | none =>
          simp only [hf, hb, ih]
          rfl
  refine ⟨heq transfers, ?_⟩
  rw [heq transfers]
  unfold rop_gadget_search_spec
  exact List.length_filterMap_le _ _

/-- C8: the analysis is a pure function of the decoded instruction stream
and the collaborator data — two runs whose providers agree pointwise on
every query (unchanged regions, unchanged decoded bytes, unchanged
cross-references) produce element-wise identical system-call and
controllable-jump collections; no hidden mutable state influences the
scan. -/
theorem analyze_deterministic (P1 P2 : Env)
    (hm : ∀ ea, P1.mnem ea = P2.mnem ea)
    (ho : ∀ ea i, P1.opnd ea i = P2.opnd ea i)
    (hc : ∀ ea, P1.chg1 ea = P2.chg1 ea)
    (hre : ∀ p s, P1.re_match p s = P2.re_match p s)
    (hx : P1.xrefsToSystem = P2.xrefsToSystem)
    (hs : P1.code_segments = P2.code_segments) :
    analyze P1 = analyze P2 ∧
    (∀ s e, find_controllable_jumps P1 s e = find_controllable_jumps P2 s e) ∧
    (∀ s e, find_system_calls P1 s e = find_system_calls P2 s e) := by
  have hP : P1 = P2 := by
    obtain ⟨m1, o1, c1, r1, x1, s1⟩ := P1
    obtain ⟨m2, o2, c2, r2, x2, s2⟩ := P2
    have e1 : m1 = m2 := funext hm
    have e2 : o1 = o2 := funext fun ea => funext (ho ea)
    have e3 : c1 = c2 := funext hc
    have e4 : r1 = r2 := funext fun p => funext (hre p)
    simp only at hx hs
    subst e1
    subst e2
    subst e3
    subst e4
    subst hx
    subst hs
    rfl
  exact ⟨by rw [hP], fun s e => by rw [hP], fun s e => by rw [hP]⟩

/-- C5 (amended): the xref loop of `_find_system_calls` examines
cross-reference call-sites in order, but a call-site outside the region
bounds or whose instruction is not a jump/branch terminates the whole loop
(the source's `else: break`), discarding all remaining call-sites; only a
call-site that passes those checks but lacks a resolvable controlling load
or argument setup is silently skipped without stopping the loop. -/
theorem syscall_xref_loop_spec (P : Env) (s e ea : Int) (rest : List Int) :
    (find_system_calls P s e = find_system_calls_go P s e P.xrefsToSystem)
    ∧ (¬(s ≤ ea ∧ ea ≤ e ∧ head_in (P.mnem ea) ['j', 'b'] = true) →
        find_system_calls_go P s e (ea :: rest) = [])
    ∧ ((s ≤ ea ∧ ea ≤ e ∧ head_in (P.mnem ea) ['j', 'b'] = true) →
        syscall_probe P ea = none →
        find_system_calls_go P s e (ea :: rest) = find_system_calls_go P s e rest)
    ∧ (∀ g, (s ≤ ea ∧ ea ≤ e ∧ head_in (P.mnem ea) ['j', 'b'] = true) →
        syscall_probe P ea = some g →
        find_system_calls_go P s e (ea :: rest) = g :: find_system_calls_go P s e rest) := by
  have hshape : find_system_calls_go P s e (ea :: rest) =
      if s ≤ ea ∧ ea ≤ e ∧ head_in (P.mnem ea) ['j', 'b'] = true then
        (match syscall_probe P ea with
         | some g => [g]
         | none => []) ++ find_system_calls_go P s e rest
      else [] := rfl
  refine ⟨rfl, ?_, ?_, ?_⟩
  · intro h
    rw [hshape, if_neg h]
  · intro h hp
    rw [hshape, if_pos h, hp]
    rfl
  · intro g h hp
    rw [hshape, if_pos h, hp]
    rfl

/-- Concrete provider for witnesses — the spec's end-to-end scenario A:
`move $t9, $s1` at `0x1000`, `jalr $t9` at `0x1004`, `li $a0, 1` at
`0x1008`; the regex collaborator is instantiated with literal equality. -/
def envA : Env where
  mnem := fun ea =>
    if ea = 0x1000 then "move"
    else if ea = 0x1004 then "jalr"
    else if ea = 0x1008 then "li"
    else ""
  opnd := fun ea i =>
    if ea = 0x1000 ∧ i = 0 then "$t9"
    else if ea = 0x1000 ∧ i = 1 then "$s1"
    else if ea = 0x1004 ∧ i = 0 then "$t9"
    else if ea = 0x1008 ∧ i = 0 then "$a0"
    else if ea = 0x1008 ∧ i = 1 then "1"
    else ""
  chg1 := fun ea => ea == 0x1000 || ea == 0x1008
  re_match := fun p s => p == s
  xrefsToSystem := []
  code_segments := [(0x1000, 0x1008)]

/-- Concrete provider for the C4 failing input: `jalr $t9` call-site at
`0x1010` (an xref to `system`), its delay slot `0x1014` holding a plain
`nop`, and the first-argument setup `addiu $a0, $sp, 0x20` sitting 3
instructions before the call at `0x1004`, with only `nop`s in between. -/
def envC4 : Env where
  mnem := fun ea =>
    if ea = 0x1004 then "addiu"
    else if ea = 0x1010 then "jalr"
    else "nop"
  opnd := fun ea i =>
    if ea = 0x1004 ∧ i = 0 then "$a0"
    else if ea = 0x1004 ∧ i = 1 then "$sp"
    else if ea = 0x1004 ∧ i = 2 then "0x20"
    else if ea = 0x1010 ∧ i = 0 then "$t9"
    else ""
  chg1 := fun ea => ea == 0x1004
  re_match := fun p s => p == s
  xrefsToSystem := [0x1010]
  code_segments := [(0x1000, 0x2000)]

/-- Concrete provider for the C5 counterexample: a fully controllable
`system` call-site at `0x1010` (`la $t9, system` at `0x100C`, call at
`0x1010`, `addiu $a0, $sp, 0x20` in the delay slot `0x1014`), but the xref
list starts with the address `0` lying outside the region. -/
def envC5 : Env where
  mnem := fun ea =>
    if ea = 0x100C then "la"
    else if ea = 0x1010 then "jalr"
    else if ea = 0x1014 then "addiu"
    else "nop"
  opnd := fun ea i =>
    if ea = 0x100C ∧ i = 0 then "$t9"
    else if ea = 0x100C ∧ i = 1 then "system"
    else if ea = 0x1010 ∧ i = 0 then "$t9"
    else if ea = 0x1014 ∧ i = 0 then "$a0"
    else if ea = 0x1014 ∧ i = 1 then "$sp"
    else if ea = 0x1014 ∧ i = 2 then "0x20"
    else ""
  chg1 := fun ea => ea == 0x100C || ea == 0x1014
  re_match := fun p s => p == s
  xrefsToSystem := [0, 0x1010]
  code_segments := [(0x1000, 0x2000)]

/-- `envC5` with the out-of-region xref removed: the same call-site, now
first in the xref list. -/
def envC5good : Env := { envC5 with xrefsToSystem := [0x1010] }

/-- C4 (failing input, evaluated): at the `envC4` call-site `0x1010` the
delay-slot probe finds nothing, and the backward probe of line 304 —
`_find_prev_instruction_ea(ea, stack_arg_zero, ea - 25*4)` starting at the
call instruction itself with its default `no_baddies=True` — returns "not
found" because the call's own `j`-mnemonic stops the scan at its very first
address, even though `addiu $a0, $sp, 0x20` at `0x1004` matches the pattern
and lies inside the 25-instruction window (the same scan with the
unsafe-stop off finds it); consequently the call-site is dropped and the
finder returns no "System call" transfer, where the claim (and spec) say
the backward search finds the setup. -/
theorem syscall_backward_probe_dead :
    does_instruction_match envC4 0x1004 stack_arg_zero false = true
    ∧ ((0x1010 : Int) - SEARCH_DEPTH * INSIZE) ≤ 0x1004
    ∧ find_next_instruction_ea envC4 (0x1010 + INSIZE) stack_arg_zero (0x1010 + INSIZE)
        false false [] = none
    ∧ find_prev_instruction_ea envC4 0x1010 stack_arg_zero
        (0x1010 - SEARCH_DEPTH * INSIZE) true false [] = none
    ∧ find_prev_instruction_ea envC4 0x1010 stack_arg_zero
        (0x1010 - SEARCH_DEPTH * INSIZE) false false [] = some 0x1004
    ∧ find_system_calls envC4 0x1000 0x2000 = [] := by
  refine ⟨by decide, by decide, by decide, by decide, by decide, by decide⟩

/-- Counterexample to C5: with cross-references `[0, 0x1010]` the first
call-site lies outside the region bounds, and the source's `else: break`
ends the whole loop — the perfectly controllable call-site at `0x1010`,
which yields a "System call" transfer when it is the only xref
(`envC5good`), is never examined, so earlier call-sites' classification
does prevent later ones from being emitted. -/
theorem syscall_xref_break_cex :
    find_system_calls envC5 0x1000 0x2000 = []
    ∧ find_system_calls envC5good 0x1000 0x2000 =
        [⟨get_instruction envC5good 0x100C, get_instruction envC5good 0x1010,
          some (get_instruction envC5good 0x1014), "System call"⟩] := by
  refine ⟨by decide, by decide⟩

/-- Witness for the amended C5 behaviour at a concrete input: the
out-of-region call-site `0` breaks the loop over `envC5`'s xrefs. -/
theorem syscall_xref_loop_spec_witness :
    find_system_calls_go envC5 0x1000 0x2000 (0 :: [0x1010]) = [] :=
  (syscall_xref_loop_spec envC5 0x1000 0x2000 0 [0x1010]).2.1 (by decide)

/-- The transfer discovered in scenario A (`envA`): control `move $t9, $s1`
at `0x1000`, jump `jalr $t9` at `0x1004`. -/
def gadgetA : ROPGadget :=
  ⟨get_instruction envA 0x1000, get_instruction envA 0x1004, none, "Controllable Jump"⟩

/-- Witness for C1 at `envA`: the control hit at `0x1000` has a present
source operand, the jump search from `0x1004` hits the `jalr $t9`, and the
scan equation of the claim holds there. -/
theorem controllable_jump_scan_step_witness :
    scanIdiom envA t9_control [⟨some "jalr", some "$t9", none, none, BADADDR⟩]
        t9_musnt_clobber 0x1008 0x1000 =
      gadgetA ::
        scanIdiom envA t9_control [⟨some "jalr", some "$t9", none, none, BADADDR⟩]
          t9_musnt_clobber 0x1008 (0x1004 + INSIZE) :=
  (controllable_jump_scan_step envA t9_control
      ⟨some "jalr", some "$t9", none, none, BADADDR⟩ t9_musnt_clobber
      0x1008 0x1000 0x1000 (by decide) (by decide)).2.1 0x1004 (by decide)

/-- Witness for C2 at `envA`: the pattern `move $t9` matches the
instruction decoded at `0x1000` in literal mode. -/
theorem instruction_match_spec_witness :
    does_instruction_match envA 0x1000 t9_control false = true :=
  ((instruction_match_spec envA 0x1000 t9_control false
      (fun s => beq_self_eq_true s)).1).mpr (by decide)

/-- Witness for C6 at `envA`: a matching start address is returned at once
(here with the stop flag set, showing the flag never rejects a match). -/
theorem windowed_search_spec_witness :
    find_next_instruction_ea envA 0x1000 t9_control 0x1008 true false [some "$t9"]
      = some 0x1000 :=
  (windowed_search_spec envA t9_control 0x1008 false [some "$t9"]).2.2.2.2.1
    0x1000 true (by decide) (by decide)

/-- Witness for C7 at `envA`: `li $a0, 1` at `0x1008` neither starts with a
jump/branch prefix nor writes a protected register, so it is safe to
cross. -/
theorem is_bad_instruction_spec_witness :
    is_bad_instruction envA 0x1008 ['j', 'b'] [some "$t9"] = false :=
  (is_bad_instruction_spec envA 0x1008 [some "$t9"]).2 (by decide) (by decide)

/-- Witness for C8: two pointwise-identical copies of `envA` give identical
collections. -/
theorem analyze_deterministic_witness :
    analyze envA = analyze envA ∧
    (∀ s e, find_controllable_jumps envA s e = find_controllable_jumps envA s e) ∧
    (∀ s e, find_system_calls envA s e = find_system_calls envA s e) :=
  analyze_deterministic envA envA (fun _ => rfl) (fun _ _ => rfl) (fun _ => rfl)
    (fun _ _ => rfl) rfl rfl

/-- Witness for C10 at `envA`: the emitted transfer `gadgetA` satisfies the
invariant. -/
theorem controllable_jump_invariants_witness :
    truthy gadgetA.entry.opnd1 = true ∧ (0x1000 : Int) ≤ gadgetA.entry.ea ∧
    gadgetA.entry.ea < gadgetA.exit.ea ∧ gadgetA.exit.ea ≤ 0x1008 :=
  controllable_jump_invariants envA 0x1000 0x1008 gadgetA (by decide)
